import Mathlib

/-!
Verification of the base64 codec in `base64.cpp` (René Nyffenegger's
base64 library, version 2.rc.04).

Shallow embedding conventions:
* Bytes and characters are `Nat` values (the C++ code works on `unsigned char`
  and `std::string`, i.e. byte sequences); byte sequences and strings are
  `List Nat`.
* `size_t` arithmetic is `Nat` arithmetic modulo `2 ^ 64`; the only place the
  source can underflow (`in_len - 4` in `decode`) is modelled explicitly with
  the modulus `SIZE_T_MOD`.
* The C++ `throw std::runtime_error` in `pos_of_char` becomes
  `Except.error DecodeError.invalidSymbol`.
* `std::string::operator[]` at index `size()` returns the NUL character in
  C++11; reading any further is undefined behaviour, modelled as the distinct
  marker `DecodeError.outOfBounds`.  `charAt` captures exactly this.
* The while loops are modelled with an explicit iteration bound (`fuel`); the
  bound passed at each call site is large enough that it is never exhausted
  before the loop condition fails, so the model is exactly the C++ loop.
-/

/-- Error outcomes of the embedded decoder.  `invalidSymbol` is the
`std::runtime_error` thrown by `pos_of_char`; `malformedLength` is the error
the specification requires for bad input lengths (the C++ source never
produces it); `outOfBounds` marks undefined behaviour from reading a
`std::string` past its size. -/
inductive DecodeError where
  | invalidSymbol
  | malformedLength
  | outOfBounds
  deriving DecidableEq

/-- The two encoding alphabets of `to_base64_chars` in the source: index
`false` (0) is the standard alphabet ending `+/`, index `true` (1) is the
url-safe alphabet ending `-_`; each as the list of ASCII codes. -/
def to_base64_chars (url : Bool) : List Nat :=
  if url then
    "ABCDEFGHIJKLMNOPQRSTUVWXYZabcdefghijklmnopqrstuvwxyz0123456789-_".toList.map Char.toNat
  else
    "ABCDEFGHIJKLMNOPQRSTUVWXYZabcdefghijklmnopqrstuvwxyz0123456789+/".toList.map Char.toNat

/-- The reverse lookup table `from_base64_chars` of the source, verbatim:
entry `c` is the 6-bit value of byte `c` in either alphabet, or the sentinel
64 when `c` belongs to neither. -/
def from_base64_chars : List Nat :=
  [64, 64, 64, 64, 64, 64, 64, 64, 64, 64, 64, 64, 64, 64, 64, 64,
   64, 64, 64, 64, 64, 64, 64, 64, 64, 64, 64, 64, 64, 64, 64, 64,
   64, 64, 64, 64, 64, 64, 64, 64, 64, 64, 64, 62, 64, 62, 64, 63,
   52, 53, 54, 55, 56, 57, 58, 59, 60, 61, 64, 64, 64, 64, 64, 64,
   64,  0,  1,  2,  3,  4,  5,  6,  7,  8,  9, 10, 11, 12, 13, 14,
   15, 16, 17, 18, 19, 20, 21, 22, 23, 24, 25, 64, 64, 64, 64, 63,
   64, 26, 27, 28, 29, 30, 31, 32, 33, 34, 35, 36, 37, 38, 39, 40,
   41, 42, 43, 44, 45, 46, 47, 48, 49, 50, 51, 64, 64, 64, 64, 64,
   64, 64, 64, 64, 64, 64, 64, 64, 64, 64, 64, 64, 64, 64, 64, 64,
   64, 64, 64, 64, 64, 64, 64, 64, 64, 64, 64, 64, 64, 64, 64, 64,
   64, 64, 64, 64, 64, 64, 64, 64, 64, 64, 64, 64, 64, 64, 64, 64,
   64, 64, 64, 64, 64, 64, 64, 64, 64, 64, 64, 64, 64, 64, 64, 64,
   64, 64, 64, 64, 64, 64, 64, 64, 64, 64, 64, 64, 64, 64, 64, 64,
   64, 64, 64, 64, 64, 64, 64, 64, 64, 64, 64, 64, 64, 64, 64, 64,
   64, 64, 64, 64, 64, 64, 64, 64, 64, 64, 64, 64, 64, 64, 64, 64,
   64, 64, 64, 64, 64, 64, 64, 64, 64, 64, 64, 64, 64, 64, 64, 64]

/-- Embedding of `pos_of_char`: return the table entry when it is not the
sentinel 64, otherwise throw (the "Input is not valid base64-encoded data."
runtime error). -/
def pos_of_char (chr : Nat) : Except DecodeError Nat :=
  if from_base64_chars.getD chr 64 ≠ 64 then .ok (from_base64_chars.getD chr 64)
  else .error .invalidSymbol

/-- Embedding of `std::string` subscripting used by `decode`: in range reads
the byte; at exactly `size()` C++11 guarantees the NUL character (value 0);
past it is undefined behaviour, modelled as the error `outOfBounds`. -/
def charAt (s : List Nat) (i : Nat) : Except DecodeError Nat :=
  if i < s.length then .ok (s.getD i 0)
  else if i = s.length then .ok 0
  else .error .outOfBounds

/-- The machine modulus of `size_t`. -/
def SIZE_T_MOD : Nat := 2 ^ 64

/-- Group loop plus tail `switch` of `base64_encode`: full 3-byte groups emit
four alphabet symbols from the 24-bit chunk (`len = in_len - in_len % 3` in
the source is exactly the boundary where fewer than 3 bytes remain), then the
remainder of 1 or 2 bytes emits 2 or 3 symbols and 2 or 1 copies of the
trailing character. -/
def encodeGroups (chars : List Nat) (trailing : Nat) : List Nat → List Nat
  | b0 :: b1 :: b2 :: rest =>
    let chunk := b0 <<< 16 ||| b1 <<< 8 ||| b2
    chars.getD (chunk >>> 18) 0 :: chars.getD (chunk >>> 12 &&& 0x3f) 0 ::
      chars.getD (chunk >>> 6 &&& 0x3f) 0 :: chars.getD (chunk &&& 0x3f) 0 ::
      encodeGroups chars trailing rest
  | [b0, b1] =>
    let chunk := b0 <<< 8 ||| b1
    [chars.getD (chunk >>> 10) 0, chars.getD (chunk >>> 4 &&& 0x3f) 0,
      chars.getD (chunk <<< 2 &&& 0x3f) 0, trailing]
  | [b0] =>
    let chunk := b0
    [chars.getD (chunk >>> 2) 0, chars.getD (chunk <<< 4 &&& 0x3f) 0, trailing, trailing]
  | [] => []

/-- Embedding of `base64_encode(bytes_to_encode, in_len, url)`: choose the
alphabet and trailing character by `url` (`'.'` = 46 when url-safe, `'='` = 61
otherwise) and run the encoding loop. -/
def base64_encode (bytes_to_encode : List Nat) (url : Bool) : List Nat :=
  encodeGroups (to_base64_chars url) (if url then 46 else 61) bytes_to_encode

/-- The three bytes pushed for a full quad of 6-bit values in `decode`:
`chunk = p0 << 18 | p1 << 12 | p2 << 6 | p3`, bytes at shifts 16, 8, 0 masked
to 8 bits. -/
def quadBytes (p0 p1 p2 p3 : Nat) : List Nat :=
  let chunk := p0 <<< 18 ||| p1 <<< 12 ||| p2 <<< 6 ||| p3
  [chunk >>> 16 &&& 0xff, chunk >>> 8 &&& 0xff, chunk &&& 0xff]

/-- The main while loop of `decode`: while `pos < lenSub` read the four
characters at `pos .. pos+3`, translate each through `pos_of_char`, push the
three decoded bytes and advance by 4.  Returns the output built so far and
the final `pos`.  `fuel` bounds the iterations; every call site passes
`lenSub + 4`, which exceeds the iteration count of any run of the C++ loop,
so the `fuel = 0` case is never the reason the loop stops. -/
def decodeLoop (s : List Nat) (lenSub : Nat) :
    Nat → Nat → List Nat → Except DecodeError (List Nat × Nat)
  | 0, pos, acc => .ok (acc, pos)
  | fuel + 1, pos, acc =>
    if pos < lenSub then
      (charAt s (pos + 0)).bind fun c0 =>
      (pos_of_char c0).bind fun p0 =>
      (charAt s (pos + 1)).bind fun c1 =>
      (pos_of_char c1).bind fun p1 =>
      (charAt s (pos + 2)).bind fun c2 =>
      (pos_of_char c2).bind fun p2 =>
      (charAt s (pos + 3)).bind fun c3 =>
      (pos_of_char c3).bind fun p3 =>
      decodeLoop s lenSub fuel (pos + 4) (acc ++ quadBytes p0 p1 p2 p3)
    else .ok (acc, pos)

/-- Final-quad handling of `decode` after the main loop, reading characters
at `pos .. pos+3` of `s` and appending the decoded bytes to `ret`: if the
third character is a pad (`'='` = 61 or `'.'` = 46) emit one byte from the
first two 6-bit values; else if the fourth is a pad emit two bytes from the
first three; else emit a full quad of three bytes. -/
def finalTail (s : List Nat) (pos : Nat) (ret : List Nat) :
    Except DecodeError (List Nat) :=
  (charAt s (pos + 2)).bind fun c2 =>
  if c2 = 61 ∨ c2 = 46 then
    (charAt s (pos + 0)).bind fun c0 =>
    (pos_of_char c0).bind fun p0 =>
    (charAt s (pos + 1)).bind fun c1 =>
    (pos_of_char c1).bind fun p1 =>
    let chunk := p0 <<< 6 ||| p1
    .ok (ret ++ [chunk >>> 4 &&& 0xff])
  else
    (charAt s (pos + 3)).bind fun c3 =>
    if c3 = 61 ∨ c3 = 46 then
      (charAt s (pos + 0)).bind fun c0 =>
      (pos_of_char c0).bind fun p0 =>
      (charAt s (pos + 1)).bind fun c1 =>
      (pos_of_char c1).bind fun p1 =>
      (charAt s (pos + 2)).bind fun c2b =>
      (pos_of_char c2b).bind fun p2 =>
      let chunk := p0 <<< 12 ||| p1 <<< 6 ||| p2
      .ok (ret ++ [chunk >>> 10 &&& 0xff, chunk >>> 2 &&& 0xff])
    else
      (charAt s (pos + 0)).bind fun c0 =>
      (pos_of_char c0).bind fun p0 =>
      (charAt s (pos + 1)).bind fun c1 =>
      (pos_of_char c1).bind fun p1 =>
      (charAt s (pos + 2)).bind fun c2b =>
      (pos_of_char c2b).bind fun p2 =>
      (charAt s (pos + 3)).bind fun c3 =>
      (pos_of_char c3).bind fun p3 =>
      .ok (ret ++ quadBytes p0 p1 p2 p3)

/-- The non-stripping body of `decode`: empty input gives empty output;
otherwise `len = in_len - 4` in `size_t` arithmetic (underflowing when
`in_len < 4`, exactly as the source does), the main loop runs, and the final
quad is handled by `finalTail`. -/
def decodeNoStrip (s : List Nat) : Except DecodeError (List Nat) :=
  if s.isEmpty then .ok []
  else
    let lenSub := (s.length + (SIZE_T_MOD - 4)) % SIZE_T_MOD
    (decodeLoop s lenSub (lenSub + 4) 0 []).bind fun rp => finalTail s rp.2 rp.1

/-- Embedding of `decode(encoded_string, remove_linebreaks)` /
`base64_decode`: empty input returns empty; with `remove_linebreaks` set all
`'\n'` (= 10) characters are erased from a copy and the copy is decoded with
the flag unset; otherwise the main decoding body runs. -/
def base64_decode (encoded_string : List Nat) (remove_linebreaks : Bool) :
    Except DecodeError (List Nat) :=
  if encoded_string.isEmpty then .ok []
  else if remove_linebreaks then
    decodeNoStrip (encoded_string.filter fun c => c != 10)
  else decodeNoStrip encoded_string

/-- Insertion of one value at a position of a list (`std::string::insert` of
a single character; positions past the end cannot occur at call sites and
append at the end). -/
def insertAt : Nat → Nat → List Nat → List Nat
  | 0, a, l => a :: l
  | _ + 1, a, [] => [a]
  | n + 1, a, x :: l => x :: insertAt n a l

/-- The while loop of `insert_linebreaks`: while `pos < str.size()` insert a
newline at `pos` and advance by `distance + 1`.  `fuel` bounds iterations;
the call site passes the initial string length, which for the distances used
(64 and 76) always exceeds the iteration count of the C++ loop. -/
def insertLoop : Nat → List Nat → Nat → Nat → List Nat
  | 0, str, _, _ => str
  | fuel + 1, str, pos, distance =>
    if pos < str.length then
      insertLoop fuel (insertAt pos 10 str) (pos + distance + 1) distance
    else str

/-- Embedding of `insert_linebreaks(str, distance)`. -/
def insert_linebreaks (str : List Nat) (distance : Nat) : List Nat :=
  if str.isEmpty then str
  else insertLoop str.length str distance distance

/-- Embedding of `encode_with_line_breaks<String, line_length>`: encode with
the standard alphabet, then insert line breaks. -/
def encode_with_line_breaks (s : List Nat) (line_length : Nat) : List Nat :=
  insert_linebreaks (base64_encode s false) line_length

/-- Embedding of `encode_pem` (width-64 wrapping). -/
def encode_pem (s : List Nat) : List Nat :=
  encode_with_line_breaks s 64

/-- Embedding of `encode_mime` (width-76 wrapping). -/
def encode_mime (s : List Nat) : List Nat :=
  encode_with_line_breaks s 76

/-!
Proof-bridge definitions.  `decodePure` restructures the index-based decode
loop plus final-quad handling as structural recursion over the character
list; it is proved equal to `decodeNoStrip` on inputs whose length is a
positive multiple of 4 (`decodeNoStrip_eq_decodePure` below), which is the
shape every claim about well-formed decoding needs.
-/

/-- The final-quad branch of `decode` as a function of the four characters
themselves (rather than of positions into the string). -/
def finalQuadPure (c0 c1 c2 c3 : Nat) : Except DecodeError (List Nat) :=
  if c2 = 61 ∨ c2 = 46 then
    (pos_of_char c0).bind fun p0 =>
    (pos_of_char c1).bind fun p1 =>
    let chunk := p0 <<< 6 ||| p1
    .ok [chunk >>> 4 &&& 0xff]
  else if c3 = 61 ∨ c3 = 46 then
    (pos_of_char c0).bind fun p0 =>
    (pos_of_char c1).bind fun p1 =>
    (pos_of_char c2).bind fun p2 =>
    let chunk := p0 <<< 12 ||| p1 <<< 6 ||| p2
    .ok [chunk >>> 10 &&& 0xff, chunk >>> 2 &&& 0xff]
  else
    (pos_of_char c0).bind fun p0 =>
    (pos_of_char c1).bind fun p1 =>
    (pos_of_char c2).bind fun p2 =>
    (pos_of_char c3).bind fun p3 =>
    .ok (quadBytes p0 p1 p2 p3)

/-- List-structured view of the whole decode body: all quads except the last
are decoded in full; the last quad goes through the pad branches.  Inputs
whose length is not a positive multiple of 4 are out of contract and get the
`malformedLength` marker (the bridge lemma is only stated for in-contract
lengths). -/
def decodePure : List Nat → Except DecodeError (List Nat)
  | c0 :: c1 :: c2 :: c3 :: c4 :: r =>
    (pos_of_char c0).bind fun p0 =>
    (pos_of_char c1).bind fun p1 =>
    (pos_of_char c2).bind fun p2 =>
    (pos_of_char c3).bind fun p3 =>
    (decodePure (c4 :: r)).bind fun rest =>
    .ok (quadBytes p0 p1 p2 p3 ++ rest)
  | [c0, c1, c2, c3] => finalQuadPure c0 c1 c2 c3
  | _ => .error .malformedLength

/-- Bind of a success is application. -/
@[simp] theorem ok_bind {α β : Type} (a : α) (f : α → Except DecodeError β) :
    (Except.ok a : Except DecodeError α).bind f = f a := rfl

/-- Bind of an error is that error. -/
@[simp] theorem error_bind {α β : Type} (e : DecodeError) (f : α → Except DecodeError β) :
    (Except.error e : Except DecodeError α).bind f = .error e := rfl

/-- Map over a success. -/
@[simp] theorem map_ok {α β : Type} (f : α → β) (a : α) :
    (Except.ok a : Except DecodeError α).map f = .ok (f a) := rfl

/-- Map over an error. -/
@[simp] theorem map_error {α β : Type} (f : α → β) (e : DecodeError) :
    (Except.error e : Except DecodeError α).map f = .error e := rfl

/-- Bitwise or is addition when the low `k` bits of the left operand are
clear and the right operand fits in them. -/
theorem or_eq_add {k : Nat} (a b : Nat) (ha : a % 2 ^ k = 0) (hb : b < 2 ^ k) :
    a ||| b = a + b := by
  obtain ⟨a', rfl⟩ := Nat.dvd_of_mod_eq_zero ha
  exact (Nat.mul_add_lt_is_or hb a').symm

/-- Masking with `0x3f` is reduction mod 64. -/
theorem and63 (x : Nat) : x &&& 63 = x % 64 :=
  Nat.and_pow_two_sub_one_eq_mod x 6

/-- Masking with `0xff` is reduction mod 256. -/
theorem and255 (x : Nat) : x &&& 255 = x % 256 :=
  Nat.and_pow_two_sub_one_eq_mod x 8

/-- Decidable equality of `Except` results, for evaluating the decoder on
concrete inputs. -/
instance {ε α : Type} [DecidableEq ε] [DecidableEq α] : DecidableEq (Except ε α) := fun x y =>
  match x, y with
  | .error a, .error b =>
    if h : a = b then .isTrue (by rw [h]) else .isFalse (fun hc => h (Except.error.inj hc))
  | .ok a, .ok b =>
    if h : a = b then .isTrue (by rw [h]) else .isFalse (fun hc => h (Except.ok.inj hc))
  | .error _, .ok _ => .isFalse (fun hc => Except.noConfusion hc)
  | .ok _, .error _ => .isFalse (fun hc => Except.noConfusion hc)

/-- In-range subscripting always succeeds with the list element. -/
theorem charAt_lt (s : List Nat) (i : Nat) (h : i < s.length) :
    charAt s i = .ok (s.getD i 0) := by
  simp [charAt, h]

/-- Subscripting a dropped list reads the original at the shifted index. -/
theorem getD_drop : ∀ (i : Nat) (s : List Nat) (j : Nat),
    (s.drop i).getD j 0 = s.getD (i + j) 0
  | 0, _, _ => by simp
  | _ + 1, [], _ => by simp
  | i + 1, x :: s, j => by
    have h := getD_drop i s j
    simp only [List.drop_succ_cons, h]
    have e : i + 1 + j = (i + j) + 1 := by omega
    rw [e, List.getD_cons_succ]

/-- Mapping the prepend of the empty list is the identity. -/
theorem map_append_nil (e : Except DecodeError (List Nat)) :
    e.map (fun bs => ([] : List Nat) ++ bs) = e := by
  cases e <;> simp

/-- The final-quad code reading `s` at `pos .. pos+3` computes the pure
final-quad function of those four characters, appending to `ret`. -/
theorem finalTail_eq (s : List Nat) (pos : Nat) (ret : List Nat) (c0 c1 c2 c3 : Nat)
    (hd : s.drop pos = [c0, c1, c2, c3]) (hl : pos + 4 = s.length) :
    finalTail s pos ret = (finalQuadPure c0 c1 c2 c3).map fun bs => ret ++ bs := by
  have hget : ∀ j, j < 4 → s.getD (pos + j) 0 = [c0, c1, c2, c3].getD j 0 := by
    intro j _
    rw [← getD_drop, hd]
  have h0 : charAt s (pos + 0) = .ok c0 := by
    rw [charAt_lt _ _ (by omega), hget 0 (by omega)]; rfl
  have h1 : charAt s (pos + 1) = .ok c1 := by
    rw [charAt_lt _ _ (by omega), hget 1 (by omega)]; rfl
  have h2 : charAt s (pos + 2) = .ok c2 := by
    rw [charAt_lt _ _ (by omega), hget 2 (by omega)]; rfl
  have h3 : charAt s (pos + 3) = .ok c3 := by
    rw [charAt_lt _ _ (by omega), hget 3 (by omega)]; rfl
  rw [finalTail, finalQuadPure, h0, h1, h2, h3]
  simp only [ok_bind]
  by_cases hc2 : c2 = 61 ∨ c2 = 46
  · rw [if_pos hc2, if_pos hc2]
    cases pos_of_char c0 <;> cases pos_of_char c1 <;> simp
  · rw [if_neg hc2, if_neg hc2]
    by_cases hc3 : c3 = 61 ∨ c3 = 46
    · rw [if_pos hc3, if_pos hc3]
      cases pos_of_char c0 <;> cases pos_of_char c1 <;> cases pos_of_char c2 <;> simp
    · rw [if_neg hc3, if_neg hc3]
      cases pos_of_char c0 <;> cases pos_of_char c1 <;> cases pos_of_char c2 <;>
        cases pos_of_char c3 <;> simp

/-- Running the decode loop from `pos` over the remaining characters `rest`
and then the final-quad code equals the list-structured decoder on `rest`,
prepending the bytes accumulated so far. -/
theorem decodeLoop_finalTail_eq :
    ∀ (fuel : Nat) (rest s : List Nat) (pos : Nat) (acc : List Nat),
      s.drop pos = rest → pos + rest.length = s.length →
      rest.length % 4 = 0 → 4 ≤ rest.length → rest.length ≤ fuel →
      (decodeLoop s (s.length - 4) fuel pos acc).bind (fun rp => finalTail s rp.2 rp.1) =
        (decodePure rest).map fun bs => acc ++ bs := by
  intro fuel
  induction fuel with
  | zero =>
    intro rest s pos acc _ _ _ h4 hf
    omega
  | succ f ih =>
    intro rest s pos acc hd hlen hm h4 hf
    rcases rest with _ | ⟨c0, _ | ⟨c1, _ | ⟨c2, _ | ⟨c3, rest4⟩⟩⟩⟩ <;>
      simp only [List.length_nil, List.length_cons] at hlen hm h4 hf
    · omega
    · omega
    · omega
    · omega
    have hget : ∀ j, j < 4 → s.getD (pos + j) 0 = (c0 :: c1 :: c2 :: c3 :: rest4).getD j 0 := by
      intro j _
      rw [← getD_drop, hd]
    rcases rest4 with _ | ⟨c4, r⟩
    · -- exactly the final quad remains: the loop condition fails
      simp only [List.length_nil] at hlen hm h4 hf
      have hpos : ¬ pos < s.length - 4 := by omega
      rw [decodeLoop, if_neg hpos, ok_bind]
      rw [finalTail_eq s pos acc c0 c1 c2 c3 (by simpa using hd) (by omega)]
      rfl
    · -- a full quad followed by at least one more: one loop iteration
      simp only [List.length_cons] at hlen hm h4 hf
      have hpos : pos < s.length - 4 := by omega
      have h0 : charAt s (pos + 0) = .ok c0 := by
        rw [charAt_lt _ _ (by omega), hget 0 (by omega)]; rfl
      have h1 : charAt s (pos + 1) = .ok c1 := by
        rw [charAt_lt _ _ (by omega), hget 1 (by omega)]; rfl
      have h2 : charAt s (pos + 2) = .ok c2 := by
        rw [charAt_lt _ _ (by omega), hget 2 (by omega)]; rfl
      have h3 : charAt s (pos + 3) = .ok c3 := by
        rw [charAt_lt _ _ (by omega), hget 3 (by omega)]; rfl
      rw [decodeLoop, if_pos hpos, h0, ok_bind]
      rw [show decodePure (c0 :: c1 :: c2 :: c3 :: c4 :: r) =
        (pos_of_char c0).bind fun p0 =>
        (pos_of_char c1).bind fun p1 =>
        (pos_of_char c2).bind fun p2 =>
        (pos_of_char c3).bind fun p3 =>
        (decodePure (c4 :: r)).bind fun rest =>
        .ok (quadBytes p0 p1 p2 p3 ++ rest) from rfl]
      cases pos_of_char c0 with
      | error e => simp
      | ok p0 =>
        rw [ok_bind, ok_bind, h1, ok_bind]
        cases pos_of_char c1 with
        | error e => simp
        | ok p1 =>
          rw [ok_bind, ok_bind, h2, ok_bind]
          cases pos_of_char c2 with
          | error e => simp
          | ok p2 =>
            rw [ok_bind, ok_bind, h3, ok_bind]
            cases pos_of_char c3 with
            | error e => simp
            | ok p3 =>
              rw [ok_bind, ok_bind]
              have hdrop : s.drop (pos + 4) = c4 :: r := by
                rw [← List.drop_drop, hd]
                rfl
              rw [ih (c4 :: r) s (pos + 4) (acc ++ quadBytes p0 p1 p2 p3) hdrop
                (by simp; omega) (by simp; omega) (by simp; omega) (by simp; omega)]
              cases decodePure (c4 :: r) <;> simp [List.append_assoc]

/-- Bridge: on input whose length is a positive multiple of 4 (and below the
`size_t` modulus), the faithful decode body equals the list-structured
decoder. -/
theorem decodeNoStrip_eq_decodePure (s : List Nat) (h4 : 4 ≤ s.length)
    (hm : s.length % 4 = 0) (hlt : s.length < 2 ^ 64) :
    decodeNoStrip s = decodePure s := by
  have hne : s.isEmpty = false := by
    cases s
    · simp at h4
    · rfl
  rw [decodeNoStrip]
  simp only [hne, Bool.false_eq_true, if_false]
  have hlenSub : (s.length + (SIZE_T_MOD - 4)) % SIZE_T_MOD = s.length - 4 := by
    have h1 : s.length + (SIZE_T_MOD - 4) = (s.length - 4) + 1 * SIZE_T_MOD := by
      have : 4 ≤ SIZE_T_MOD := by norm_num [SIZE_T_MOD]
      omega
    rw [h1, Nat.add_mul_mod_self_right, Nat.mod_eq_of_lt]
    have : SIZE_T_MOD = 2 ^ 64 := rfl
    omega
  rw [hlenSub, show s.length - 4 + 4 = s.length from by omega]
  rw [decodeLoop_finalTail_eq s.length s s 0 [] (by simp) (by simp) hm h4 (le_refl _)]
  exact map_append_nil _

/-- Looking up an encoded alphabet symbol in the reverse table recovers its
6-bit index, for either alphabet. -/
theorem posOf_alpha : ∀ (url : Bool), ∀ i < 64,
    pos_of_char ((to_base64_chars url).getD i 0) = .ok i := by decide

/-- Every symbol of either alphabet differs from both pad characters, from
the newline, and fits in a byte. -/
theorem alpha_facts : ∀ (url : Bool), ∀ x ∈ to_base64_chars url,
    x ≠ 61 ∧ x ≠ 46 ∧ x ≠ 10 ∧ x < 256 := by decide

/-- Any `getD` lookup into an alphabet is an alphabet symbol or the default. -/
theorem alpha_getD_mem (url : Bool) (i : Nat) :
    (to_base64_chars url).getD i 0 ∈ to_base64_chars url ∨
      (to_base64_chars url).getD i 0 = 0 := by
  by_cases h : i < (to_base64_chars url).length
  · left
    rw [List.getD_eq_getElem?_getD, List.getElem?_eq_getElem h]
    exact List.getElem_mem h
  · right
    exact List.getD_eq_default _ _ (by omega)

/-- Characters emitted from an alphabet lookup are never a pad symbol nor a
newline. -/
theorem enc_char_ne (url : Bool) (i : Nat) :
    (to_base64_chars url).getD i 0 ≠ 61 ∧ (to_base64_chars url).getD i 0 ≠ 46 ∧
      (to_base64_chars url).getD i 0 ≠ 10 := by
  rcases alpha_getD_mem url i with h | h
  · have hf := alpha_facts url _ h
    exact ⟨hf.1, hf.2.1, hf.2.2.1⟩
  · rw [h]
    exact ⟨by omega, by omega, by omega⟩

/-- Length of the encoding loop output: four symbols per started 3-byte
group. -/
theorem encodeGroups_length (chars : List Nat) (trailing : Nat) :
    ∀ B : List Nat, (encodeGroups chars trailing B).length = (B.length + 2) / 3 * 4
  | [] => rfl
  | [_] => by norm_num [encodeGroups]
  | [_, _] => by norm_num [encodeGroups]
  | b0 :: b1 :: b2 :: rest => by
    have ih := encodeGroups_length chars trailing rest
    simp only [encodeGroups, List.length_cons, ih]
    omega

/-- Length law for the encoder, on any input. -/
theorem base64_encode_length (B : List Nat) (url : Bool) :
    (base64_encode B url).length = (B.length + 2) / 3 * 4 :=
  encodeGroups_length _ _ B

/-- The 24-bit chunk packed by the encoder for a full 3-byte group, in plain
arithmetic. -/
theorem enc_chunk_eq (b0 b1 b2 : Nat) (h1 : b1 < 256) (h2 : b2 < 256) :
    b0 <<< 16 ||| b1 <<< 8 ||| b2 = 65536 * b0 + 256 * b1 + b2 := by
  rw [Nat.shiftLeft_eq, Nat.shiftLeft_eq]
  rw [or_eq_add (k := 16) (b0 * 2 ^ 16) (b1 * 2 ^ 8) (by omega) (by omega)]
  rw [or_eq_add (k := 8) (b0 * 2 ^ 16 + b1 * 2 ^ 8) b2 (by omega) (by omega)]
  ring

/-- The 16-bit chunk packed by the encoder for a trailing 2-byte group. -/
theorem enc_chunk2_eq (b0 b1 : Nat) (h1 : b1 < 256) :
    b0 <<< 8 ||| b1 = 256 * b0 + b1 := by
  rw [Nat.shiftLeft_eq]
  rw [or_eq_add (k := 8) (b0 * 2 ^ 8) b1 (by omega) (by omega)]
  ring

/-- The bytes reconstructed from a full quad of 6-bit values, in plain
arithmetic. -/
theorem quadBytes_arith (p0 p1 p2 p3 : Nat) (g1 : p1 < 64) (g2 : p2 < 64) (g3 : p3 < 64) :
    quadBytes p0 p1 p2 p3 =
      [(262144 * p0 + 4096 * p1 + 64 * p2 + p3) / 65536 % 256,
       (262144 * p0 + 4096 * p1 + 64 * p2 + p3) / 256 % 256,
       (262144 * p0 + 4096 * p1 + 64 * p2 + p3) % 256] := by
  simp only [quadBytes, Nat.shiftLeft_eq, Nat.shiftRight_eq_div_pow, and255]
  rw [or_eq_add (k := 18) (p0 * 2 ^ 18) (p1 * 2 ^ 12) (by omega) (by omega)]
  rw [or_eq_add (k := 12) (p0 * 2 ^ 18 + p1 * 2 ^ 12) (p2 * 2 ^ 6) (by omega) (by omega)]
  rw [or_eq_add (k := 6) (p0 * 2 ^ 18 + p1 * 2 ^ 12 + p2 * 2 ^ 6) p3 (by omega) (by omega)]
  have e : p0 * 2 ^ 18 + p1 * 2 ^ 12 + p2 * 2 ^ 6 + p3 =
      262144 * p0 + 4096 * p1 + 64 * p2 + p3 := by ring
  rw [e]

/-- A lookup index is never both pad symbols; packaged negation for the
final-quad branch conditions. -/
theorem enc_char_not_pad (url : Bool) (i : Nat) :
    ¬((to_base64_chars url).getD i 0 = 61 ∨ (to_base64_chars url).getD i 0 = 46) :=
  fun h => h.elim (enc_char_ne url i).1 (enc_char_ne url i).2.1

/-- Decoding the two symbols emitted for a single trailing byte recovers the
byte. -/
theorem tail1_byte (b0 : Nat) (h0 : b0 < 256) :
    ((b0 >>> 2) <<< 6 ||| (b0 <<< 4 &&& 0x3f)) >>> 4 &&& 0xff = b0 := by
  simp only [Nat.shiftRight_eq_div_pow, Nat.shiftLeft_eq, and63, and255]
  rw [or_eq_add (k := 6) (b0 / 2 ^ 2 * 2 ^ 6) (b0 * 2 ^ 4 % 64) (by omega) (by omega)]
  omega

/-- Decoding the three symbols emitted for two trailing bytes recovers the
first byte. -/
theorem tail2_byte0 (b0 b1 : Nat) (h0 : b0 < 256) (h1 : b1 < 256) :
    (((256 * b0 + b1) >>> 10) <<< 12 ||| ((256 * b0 + b1) >>> 4 &&& 0x3f) <<< 6 |||
      ((256 * b0 + b1) <<< 2 &&& 0x3f)) >>> 10 &&& 0xff = b0 := by
  simp only [Nat.shiftRight_eq_div_pow, Nat.shiftLeft_eq, and63, and255]
  rw [or_eq_add (k := 12) ((256 * b0 + b1) / 2 ^ 10 * 2 ^ 12)
    ((256 * b0 + b1) / 2 ^ 4 % 64 * 2 ^ 6) (by omega) (by omega)]
  rw [or_eq_add (k := 6)
    ((256 * b0 + b1) / 2 ^ 10 * 2 ^ 12 + (256 * b0 + b1) / 2 ^ 4 % 64 * 2 ^ 6)
    ((256 * b0 + b1) * 2 ^ 2 % 64) (by omega) (by omega)]
  omega

/-- Decoding the three symbols emitted for two trailing bytes recovers the
second byte. -/
theorem tail2_byte1 (b0 b1 : Nat) (h0 : b0 < 256) (h1 : b1 < 256) :
    (((256 * b0 + b1) >>> 10) <<< 12 ||| ((256 * b0 + b1) >>> 4 &&& 0x3f) <<< 6 |||
      ((256 * b0 + b1) <<< 2 &&& 0x3f)) >>> 2 &&& 0xff = b1 := by
  simp only [Nat.shiftRight_eq_div_pow, Nat.shiftLeft_eq, and63, and255]
  rw [or_eq_add (k := 12) ((256 * b0 + b1) / 2 ^ 10 * 2 ^ 12)
    ((256 * b0 + b1) / 2 ^ 4 % 64 * 2 ^ 6) (by omega) (by omega)]
  rw [or_eq_add (k := 6)
    ((256 * b0 + b1) / 2 ^ 10 * 2 ^ 12 + (256 * b0 + b1) / 2 ^ 4 % 64 * 2 ^ 6)
    ((256 * b0 + b1) * 2 ^ 2 % 64) (by omega) (by omega)]
  omega

/-- Core round trip on the list level: the list-structured decoder inverts
the encoding loop on any nonempty byte sequence. -/
theorem decodePure_encodeGroups (url : Bool) :
    ∀ B : List Nat, B ≠ [] → (∀ b ∈ B, b < 256) →
      decodePure (encodeGroups (to_base64_chars url) (if url then 46 else 61) B) = .ok B
  | [], h, _ => absurd rfl h
  | [b0], _, hB => by
    have h0 : b0 < 256 := hB b0 (by simp)
    have hi0 : b0 >>> 2 < 64 := by rw [Nat.shiftRight_eq_div_pow]; omega
    have hi1 : b0 <<< 4 &&& 0x3f < 64 := by rw [and63]; omega
    have hpad : (if url then (46 : Nat) else 61) = 61 ∨ (if url then (46 : Nat) else 61) = 46 := by
      cases url <;> simp
    simp only [encodeGroups, decodePure, finalQuadPure]
    rw [if_pos hpad]
    rw [posOf_alpha url _ hi0, ok_bind, posOf_alpha url _ hi1, ok_bind]
    rw [tail1_byte b0 h0]
  | [b0, b1], _, hB => by
    have h0 : b0 < 256 := hB b0 (by simp)
    have h1 : b1 < 256 := hB b1 (by simp)
    have hpad : (if url then (46 : Nat) else 61) = 61 ∨ (if url then (46 : Nat) else 61) = 46 := by
      cases url <;> simp
    simp only [encodeGroups, decodePure, finalQuadPure]
    rw [enc_chunk2_eq b0 b1 h1]
    have hi0 : (256 * b0 + b1) >>> 10 < 64 := by rw [Nat.shiftRight_eq_div_pow]; omega
    have hi1 : (256 * b0 + b1) >>> 4 &&& 0x3f < 64 := by rw [and63]; omega
    have hi2 : (256 * b0 + b1) <<< 2 &&& 0x3f < 64 := by rw [and63]; omega
    rw [if_neg (enc_char_not_pad url _), if_pos hpad]
    rw [posOf_alpha url _ hi0, ok_bind, posOf_alpha url _ hi1, ok_bind,
      posOf_alpha url _ hi2, ok_bind]
    rw [tail2_byte0 b0 b1 h0 h1, tail2_byte1 b0 b1 h0 h1]
  | [b0, b1, b2], _, hB => by
    have h0 : b0 < 256 := hB b0 (by simp)
    have h1 : b1 < 256 := hB b1 (by simp)
    have h2 : b2 < 256 := hB b2 (by simp)
    simp only [encodeGroups, decodePure, finalQuadPure]
    rw [enc_chunk_eq b0 b1 b2 h1 h2]
    have hi0 : (65536 * b0 + 256 * b1 + b2) >>> 18 < 64 := by
      rw [Nat.shiftRight_eq_div_pow]; omega
    have hi1 : (65536 * b0 + 256 * b1 + b2) >>> 12 &&& 0x3f < 64 := by rw [and63]; omega
    have hi2 : (65536 * b0 + 256 * b1 + b2) >>> 6 &&& 0x3f < 64 := by rw [and63]; omega
    have hi3 : (65536 * b0 + 256 * b1 + b2) &&& 0x3f < 64 := by rw [and63]; omega
    rw [if_neg (enc_char_not_pad url _), if_neg (enc_char_not_pad url _)]
    rw [posOf_alpha url _ hi0, ok_bind, posOf_alpha url _ hi1, ok_bind,
      posOf_alpha url _ hi2, ok_bind, posOf_alpha url _ hi3, ok_bind]
    rw [quadBytes_arith _ _ _ _ hi1 hi2 hi3]
    simp only [Nat.shiftRight_eq_div_pow, and63, Except.ok.injEq, List.cons.injEq,
      and_true]
    exact ⟨by omega, by omega, by omega⟩
  | b0 :: b1 :: b2 :: b3 :: rest2, _, hB => by
    have h0 : b0 < 256 := hB b0 (by simp)
    have h1 : b1 < 256 := hB b1 (by simp)
    have h2 : b2 < 256 := hB b2 (by simp)
    have ih := decodePure_encodeGroups url (b3 :: rest2) (by simp)
      (fun b hb => hB b (by simp [hb, List.mem_cons]))
    simp only [encodeGroups, decodePure]
    cases hE : encodeGroups (to_base64_chars url) (if url then 46 else 61) (b3 :: rest2) with
    | nil =>
      have hlen := encodeGroups_length (to_base64_chars url) (if url then 46 else 61)
        (b3 :: rest2)
      rw [hE] at hlen
      simp at hlen
      omega
    | cons c4 r =>
      rw [hE] at ih
      simp only [decodePure]
      rw [enc_chunk_eq b0 b1 b2 h1 h2]
      have hi0 : (65536 * b0 + 256 * b1 + b2) >>> 18 < 64 := by
        rw [Nat.shiftRight_eq_div_pow]; omega
      have hi1 : (65536 * b0 + 256 * b1 + b2) >>> 12 &&& 0x3f < 64 := by rw [and63]; omega
      have hi2 : (65536 * b0 + 256 * b1 + b2) >>> 6 &&& 0x3f < 64 := by rw [and63]; omega
      have hi3 : (65536 * b0 + 256 * b1 + b2) &&& 0x3f < 64 := by rw [and63]; omega
      rw [posOf_alpha url _ hi0, ok_bind, posOf_alpha url _ hi1, ok_bind,
        posOf_alpha url _ hi2, ok_bind, posOf_alpha url _ hi3, ok_bind]
      rw [ih, ok_bind]
      rw [quadBytes_arith _ _ _ _ hi1 hi2 hi3]
      simp only [Nat.shiftRight_eq_div_pow, and63, Except.ok.injEq, List.cons_append,
        List.nil_append, List.cons.injEq, and_true]
      exact ⟨by omega, by omega, by omega⟩

/-- Inserting at the boundary between two list parts places the element
between them. -/
theorem insertAt_append (a : Nat) :
    ∀ (done rest : List Nat), insertAt done.length a (done ++ rest) = done ++ a :: rest
  | [], _ => rfl
  | x :: done, rest => by
    simp only [List.length_cons, List.cons_append, insertAt]
    exact congrArg (x :: ·) (insertAt_append a done rest)

/-- The insertion loop does nothing once the position is at or past the end
of the string. -/
theorem insertLoop_exit :
    ∀ (fuel : Nat) (str : List Nat) (pos d : Nat), str.length ≤ pos →
      insertLoop fuel str pos d = str
  | 0, _, _, _, _ => rfl
  | fuel + 1, str, pos, d, h => by
    rw [insertLoop, if_neg (by omega)]

/-- Wrapped-tail normal form: a newline, then the next chunk of `d`
characters, then recursively the rest.  Proof-bridge definition, meaningful
for `1 ≤ d`. -/
def breakTail (d : Nat) (l : List Nat) : List Nat :=
  if h : d = 0 ∨ l = [] then []
  else 10 :: (l.take d ++ breakTail d (l.drop d))
termination_by l.length
decreasing_by
  push_neg at h
  have h1 : 0 < l.length := List.length_pos.mpr h.2
  simp only [List.length_drop]
  omega

/-- Normal form of `insert_linebreaks`: the first chunk of `d` characters
unchanged, then the wrapped tail.  Proof-bridge definition. -/
def wrapSpec (d : Nat) (l : List Nat) : List Nat :=
  if l.length ≤ d then l else l.take d ++ breakTail d (l.drop d)

/-- The wrapped tail of a nonempty list is nonempty. -/
theorem breakTail_ne_nil (d : Nat) (l : List Nat) (hd : 1 ≤ d) (hl : l ≠ []) :
    breakTail d l ≠ [] := by
  rw [breakTail, dif_neg (by push_neg; exact ⟨by omega, hl⟩)]
  simp

/-- One iteration of the insertion loop at the boundary `pos = done.length`
adds a newline and moves the boundary one chunk to the right; iterating
produces the wrapped tail. -/
theorem insertLoop_eq :
    ∀ (fuel : Nat) (done rest : List Nat) (pos d : Nat), 1 ≤ d →
      pos = done.length → rest.length ≤ fuel →
      insertLoop fuel (done ++ rest) pos d = done ++ breakTail d rest := by
  intro fuel
  induction fuel with
  | zero =>
    intro done rest pos d hd hpos hf
    have hrest : rest = [] := by
      cases rest
      · rfl
      · simp at hf
    subst hrest
    rw [breakTail, dif_pos (Or.inr rfl)]
    exact insertLoop_exit 0 _ _ _ (by simp [hpos])
  | succ f ih =>
    intro done rest pos d hd hpos hf
    rcases rest with _ | ⟨r0, rs⟩
    · rw [breakTail, dif_pos (Or.inr rfl)]
      exact insertLoop_exit (f + 1) _ _ _ (by simp [hpos])
    · simp only [List.length_cons] at hf
      rw [insertLoop, if_pos (by simp [hpos])]
      subst hpos
      rw [insertAt_append]
      by_cases hlen : rs.length + 1 ≤ d
      · have htake : (r0 :: rs).take d = r0 :: rs :=
          List.take_of_length_le (by simp; omega)
        have hdrop : (r0 :: rs).drop d = [] :=
          List.drop_eq_nil_of_le (by simp; omega)
        rw [insertLoop_exit f _ _ d (by simp; omega)]
        rw [breakTail, dif_neg (by push_neg; exact ⟨by omega, by simp⟩)]
        rw [htake, hdrop, breakTail, dif_pos (Or.inr rfl)]
        simp
      · have e1 : done ++ 10 :: r0 :: rs =
            (done ++ 10 :: (r0 :: rs).take d) ++ (r0 :: rs).drop d := by
          simp only [List.append_assoc, List.cons_append]
          rw [List.take_append_drop]
        have e2 : done.length + d + 1 = (done ++ 10 :: (r0 :: rs).take d).length := by
          simp only [List.length_append, List.length_cons, List.length_take]
          omega
        have hbt : breakTail d (r0 :: rs) =
            10 :: ((r0 :: rs).take d ++ breakTail d ((r0 :: rs).drop d)) := by
          rw [breakTail]
          rw [dif_neg (by push_neg; exact ⟨by omega, by simp⟩)]
        rw [e1]
        rw [ih (done ++ 10 :: (r0 :: rs).take d) ((r0 :: rs).drop d)
          (done.length + d + 1) d hd e2
          (by simp only [List.length_drop, List.length_cons]; omega)]
        rw [hbt]
        simp [List.append_assoc]

/-- The faithful `insert_linebreaks` equals its normal form for the
distances in use. -/
theorem insert_linebreaks_eq (str : List Nat) (d : Nat) (hd : 1 ≤ d) :
    insert_linebreaks str d = wrapSpec d str := by
  rw [insert_linebreaks, wrapSpec]
  by_cases hstr : str.isEmpty
  · have h : str = [] := List.isEmpty_iff.mp hstr
    subst h
    simp
  · rw [if_neg hstr]
    by_cases hle : str.length ≤ d
    · rw [if_pos hle]
      exact insertLoop_exit _ _ _ _ (by omega)
    · rw [if_neg hle]
      have key := insertLoop_eq str.length (str.take d) (str.drop d) d d hd
        (by simp only [List.length_take]; omega)
        (by simp only [List.length_drop]; omega)
      rw [List.take_append_drop] at key
      exact key

/-- Filtering the newlines out of the wrapped tail recovers the original
characters. -/
theorem filter_breakTail (d : Nat) (hd : 1 ≤ d) :
    ∀ (n : Nat) (l : List Nat), l.length ≤ n → (∀ x ∈ l, x ≠ 10) →
      (breakTail d l).filter (fun c => c != 10) = l := by
  intro n
  induction n with
  | zero =>
    intro l hn _
    have h : l = [] := by
      cases l
      · rfl
      · simp at hn
    subst h
    rw [breakTail, dif_pos (Or.inr rfl)]
    rfl
  | succ m ih =>
    intro l hn hl
    by_cases hnil : l = []
    · subst hnil
      rw [breakTail, dif_pos (Or.inr rfl)]
      rfl
    · rw [breakTail, dif_neg (by push_neg; exact ⟨by omega, hnil⟩)]
      rw [List.filter_cons_of_neg (by simp)]
      rw [List.filter_append]
      rw [List.filter_eq_self.mpr fun a ha => by
        simpa using hl a (List.mem_of_mem_take ha)]
      rw [ih (l.drop d)
        (by simp only [List.length_drop]; have := List.length_pos.mpr hnil; omega)
        (fun x hx => hl x (List.mem_of_mem_drop hx))]
      exact List.take_append_drop d l

/-- Filtering the newlines out of the wrapped form recovers the original
characters. -/
theorem filter_wrapSpec (d : Nat) (hd : 1 ≤ d) (l : List Nat) (hl : ∀ x ∈ l, x ≠ 10) :
    (wrapSpec d l).filter (fun c => c != 10) = l := by
  rw [wrapSpec]
  by_cases hle : l.length ≤ d
  · rw [if_pos hle]
    exact List.filter_eq_self.mpr fun a ha => by simpa using hl a ha
  · rw [if_neg hle]
    rw [List.filter_append]
    rw [List.filter_eq_self.mpr fun a ha => by simpa using hl a (List.mem_of_mem_take ha)]
    rw [filter_breakTail d hd (l.drop d).length (l.drop d) (le_refl _)
      (fun x hx => hl x (List.mem_of_mem_drop hx))]
    exact List.take_append_drop d l

/-- Shifting by `d` turns "remainder `d` modulo `d+1`" into divisibility by
`d+1`. -/
theorem mod_shift (d m : Nat) : (d + m) % (d + 1) = d ↔ m % (d + 1) = 0 := by
  rw [Nat.add_mod]
  rw [Nat.mod_eq_of_lt (show d < d + 1 by omega)]
  have hrlt : m % (d + 1) < d + 1 := Nat.mod_lt _ (by omega)
  constructor
  · intro h
    by_contra hne
    have e : d + m % (d + 1) = (d + 1) + (m % (d + 1) - 1) := by omega
    rw [e, Nat.add_mod_left] at h
    rw [Nat.mod_eq_of_lt (by omega)] at h
    omega
  · intro h
    rw [h, Nat.add_zero]
    exact Nat.mod_eq_of_lt (by omega)

/-- A list without newlines never ends in a newline. -/
theorem getLast_ne_newline (l : List Nat) (hl : ∀ x ∈ l, x ≠ 10) :
    l.getLast? ≠ some 10 := by
  intro h
  rw [List.getLast?_eq_getElem?] at h
  exact hl 10 (List.getElem?_mem h) rfl

/-- The wrapped tail never ends in a newline. -/
theorem breakTail_getLast (d : Nat) (hd : 1 ≤ d) :
    ∀ (n : Nat) (l : List Nat), l.length ≤ n → (∀ x ∈ l, x ≠ 10) →
      (breakTail d l).getLast? ≠ some 10 := by
  intro n
  induction n with
  | zero =>
    intro l hn _
    have h : l = [] := by
      cases l
      · rfl
      · simp at hn
    subst h
    rw [breakTail, dif_pos (Or.inr rfl)]
    simp
  | succ m ih =>
    intro l hn hl
    by_cases hnil : l = []
    · subst hnil
      rw [breakTail, dif_pos (Or.inr rfl)]
      simp
    · rw [breakTail, dif_neg (by push_neg; exact ⟨by omega, hnil⟩)]
      by_cases hld : l.length ≤ d
      · have hdrop : l.drop d = [] := List.drop_eq_nil_of_le hld
        have htake : l.take d = l := List.take_of_length_le hld
        rw [hdrop, htake, breakTail, dif_pos (Or.inr rfl), List.append_nil]
        have e : (10 : Nat) :: l = [10] ++ l := rfl
        rw [e, List.getLast?_append]
        obtain ⟨y, hy⟩ := Option.isSome_iff_exists.mp (List.getLast?_isSome.mpr hnil)
        rw [hy]
        have hymem : y ∈ l := by
          rw [List.getLast?_eq_getElem?] at hy
          exact List.getElem?_mem hy
        have hyne := hl y hymem
        simp
        omega
      · have hdne : l.drop d ≠ [] := by
          intro hc
          have := congrArg List.length hc
          simp only [List.length_drop, List.length_nil] at this
          omega
        have hbtne : breakTail d (l.drop d) ≠ [] := breakTail_ne_nil d _ hd hdne
        have e : (10 : Nat) :: (l.take d ++ breakTail d (l.drop d)) =
            ([10] ++ l.take d) ++ breakTail d (l.drop d) := by simp
        rw [e, List.getLast?_append]
        obtain ⟨y, hy⟩ := Option.isSome_iff_exists.mp (List.getLast?_isSome.mpr hbtne)
        rw [hy]
        have hlast := ih (l.drop d)
          (by simp only [List.length_drop]; have := List.length_pos.mpr hnil; omega)
          (fun x hx => hl x (List.mem_of_mem_drop hx))
        rw [hy] at hlast
        simpa using hlast

/-- The wrapped form never ends in a newline. -/
theorem wrapSpec_getLast (d : Nat) (hd : 1 ≤ d) (l : List Nat) (hl : ∀ x ∈ l, x ≠ 10) :
    (wrapSpec d l).getLast? ≠ some 10 := by
  rw [wrapSpec]
  by_cases hle : l.length ≤ d
  · rw [if_pos hle]
    exact getLast_ne_newline l hl
  · rw [if_neg hle]
    have hdne : l.drop d ≠ [] := by
      intro hc
      have := congrArg List.length hc
      simp only [List.length_drop, List.length_nil] at this
      omega
    have hbtne : breakTail d (l.drop d) ≠ [] := breakTail_ne_nil d _ hd hdne
    rw [List.getLast?_append]
    obtain ⟨y, hy⟩ := Option.isSome_iff_exists.mp (List.getLast?_isSome.mpr hbtne)
    rw [hy]
    have hlast := breakTail_getLast d hd (l.drop d).length (l.drop d) (le_refl _)
      (fun x hx => hl x (List.mem_of_mem_drop hx))
    rw [hy] at hlast
    simpa using hlast

/-- No character of an encoding is a newline. -/
theorem encodeGroups_ne_newline (url : Bool) :
    ∀ B : List Nat, ∀ x ∈ encodeGroups (to_base64_chars url) (if url then 46 else 61) B,
      x ≠ 10
  | [] => by simp [encodeGroups]
  | [b0] => by
    intro x hx
    simp only [encodeGroups, List.mem_cons, List.not_mem_nil, or_false] at hx
    rcases hx with rfl | rfl | rfl | rfl
    · exact (enc_char_ne url _).2.2
    · exact (enc_char_ne url _).2.2
    · cases url <;> simp
    · cases url <;> simp
  | [b0, b1] => by
    intro x hx
    simp only [encodeGroups, List.mem_cons, List.not_mem_nil, or_false] at hx
    rcases hx with rfl | rfl | rfl | rfl
    · exact (enc_char_ne url _).2.2
    · exact (enc_char_ne url _).2.2
    · exact (enc_char_ne url _).2.2
    · cases url <;> simp
  | b0 :: b1 :: b2 :: rest => by
    intro x hx
    simp only [encodeGroups, List.mem_cons] at hx
    rcases hx with rfl | rfl | rfl | rfl | hx
    · exact (enc_char_ne url _).2.2
    · exact (enc_char_ne url _).2.2
    · exact (enc_char_ne url _).2.2
    · exact (enc_char_ne url _).2.2
    · exact encodeGroups_ne_newline url rest x hx

/-- No character of `base64_encode` output is a newline. -/
theorem encode_ne_newline (B : List Nat) (url : Bool) :
    ∀ x ∈ base64_encode B url, x ≠ 10 :=
  encodeGroups_ne_newline url B

/-- Round trip of the faithful encoder and decoder (linebreak stripping
unset), for byte sequences whose encoded length fits in `size_t`. -/
theorem decode_encode (B : List Nat) (url : Bool) (hB : ∀ b ∈ B, b < 256)
    (hlen : B.length < 2 ^ 61) :
    base64_decode (base64_encode B url) false = .ok B := by
  cases B with
  | nil => rfl
  | cons b Bs =>
    have hEl : (base64_encode (b :: Bs) url).length = ((b :: Bs).length + 2) / 3 * 4 :=
      base64_encode_length _ _
    have h4 : 4 ≤ (base64_encode (b :: Bs) url).length := by
      rw [hEl]
      simp only [List.length_cons]
      omega
    have hm : (base64_encode (b :: Bs) url).length % 4 = 0 := by
      rw [hEl]
      omega
    have hlt : (base64_encode (b :: Bs) url).length < 2 ^ 64 := by
      rw [hEl]
      simp only [List.length_cons] at hlen ⊢
      omega
    have hne : (base64_encode (b :: Bs) url).isEmpty = false :=
      List.isEmpty_eq_false.mpr (by
        intro hc
        rw [hc] at h4
        simp at h4)
    rw [base64_decode]
    simp only [hne, Bool.false_eq_true, if_false]
    rw [decodeNoStrip_eq_decodePure _ h4 hm hlt]
    exact decodePure_encodeGroups url (b :: Bs) (by simp) hB

/-- With `remove_linebreaks` set, decoding equals decoding the
newline-filtered input with the flag unset. -/
theorem decode_strip_eq (s : List Nat) :
    base64_decode s true = base64_decode (s.filter fun c => c != 10) false := by
  by_cases hs : s.isEmpty
  · have h : s = [] := List.isEmpty_iff.mp hs
    subst h
    rfl
  · rw [base64_decode, base64_decode, if_neg hs, if_pos rfl]
    by_cases hf : (s.filter fun c => c != 10).isEmpty
    · rw [if_pos hf]
      have h : s.filter (fun c => c != 10) = [] := List.isEmpty_iff.mp hf
      rw [h]
      rfl
    · rw [if_neg hf]
      simp only [Bool.false_eq_true, if_false]

/-- Round trip through the MIME-wrapped format with linebreak stripping. -/
theorem decode_encode_mime (B : List Nat) (hB : ∀ b ∈ B, b < 256)
    (hlen : B.length < 2 ^ 61) :
    base64_decode (encode_mime B) true = .ok B := by
  rw [decode_strip_eq]
  rw [encode_mime, encode_with_line_breaks]
  rw [insert_linebreaks_eq _ 76 (by omega)]
  rw [filter_wrapSpec 76 (by omega) _ (encode_ne_newline B false)]
  exact decode_encode B false hB hlen

/-- Newline positions in the wrapped tail: exactly the indices divisible by
`d + 1` (and in range). -/
theorem breakTail_newline_iff (d : Nat) (hd : 1 ≤ d) :
    ∀ (n : Nat) (l : List Nat), l.length ≤ n → (∀ x ∈ l, x ≠ 10) → ∀ i,
      ((breakTail d l)[i]? = some 10 ↔
        (i % (d + 1) = 0 ∧ i < (breakTail d l).length)) := by
  intro n
  induction n with
  | zero =>
    intro l hn _ i
    have h : l = [] := by
      cases l
      · rfl
      · simp at hn
    subst h
    rw [breakTail, dif_pos (Or.inr rfl)]
    simp
  | succ m ih =>
    intro l hn hl i
    by_cases hnil : l = []
    · subst hnil
      rw [breakTail, dif_pos (Or.inr rfl)]
      simp
    · rw [breakTail, dif_neg (by push_neg; exact ⟨by omega, hnil⟩)]
      rcases i with _ | j
      · simp
      · rw [List.getElem?_cons_succ]
        by_cases hj : j < (l.take d).length
        · rw [List.getElem?_append_left hj]
          have hjd : j < d := by
            have := List.length_take_le d l
            omega
          constructor
          · intro hsome
            exact absurd rfl (hl 10 (List.mem_of_mem_take (List.getElem?_mem hsome)))
          · rintro ⟨hmod, _⟩
            rw [Nat.mod_eq_of_lt (by omega)] at hmod
            omega
        · rw [List.getElem?_append_right (by omega)]
          by_cases hld : l.length ≤ d
          · have hdrop : l.drop d = [] := List.drop_eq_nil_of_le hld
            have htake : l.take d = l := List.take_of_length_le hld
            rw [hdrop, breakTail, dif_pos (Or.inr rfl)]
            rw [htake] at hj ⊢
            simp only [List.getElem?_nil, List.length_cons, List.length_append,
              List.length_nil]
            constructor
            · intro h
              exact absurd h (by simp)
            · rintro ⟨_, hlt⟩
              omega
          · have htl : (l.take d).length = d := by
              rw [List.length_take]
              omega
            rw [htl] at hj ⊢
            rw [ih (l.drop d)
              (by simp only [List.length_drop]; omega)
              (fun x hx => hl x (List.mem_of_mem_drop hx)) (j - d)]
            have hmod_eq : (j + 1) % (d + 1) = (j - d) % (d + 1) := by
              have e : j + 1 = (d + 1) + (j - d) := by omega
              rw [e, Nat.add_mod_left]
            have hlen_eq : ((10 : Nat) :: (l.take d ++ breakTail d (l.drop d))).length =
                1 + d + (breakTail d (l.drop d)).length := by
              simp only [List.length_cons, List.length_append, htl]
              omega
            constructor
            · rintro ⟨h1, h2⟩
              refine ⟨by rw [hmod_eq]; exact h1, ?_⟩
              rw [hlen_eq]
              omega
            · rintro ⟨h1, h2⟩
              refine ⟨by rw [← hmod_eq]; exact h1, ?_⟩
              rw [hlen_eq] at h2
              omega

/-- Newline positions in the wrapped form: exactly the indices with
remainder `d` modulo `d + 1` (and in range). -/
theorem wrapSpec_newline_iff (d : Nat) (hd : 1 ≤ d) (l : List Nat)
    (hl : ∀ x ∈ l, x ≠ 10) (i : Nat) :
    ((wrapSpec d l)[i]? = some 10 ↔ (i % (d + 1) = d ∧ i < (wrapSpec d l).length)) := by
  rw [wrapSpec]
  by_cases hle : l.length ≤ d
  · rw [if_pos hle]
    constructor
    · intro h
      exact absurd rfl (hl 10 (List.getElem?_mem h))
    · rintro ⟨hmod, hlt⟩
      rw [Nat.mod_eq_of_lt (by omega)] at hmod
      omega
  · rw [if_neg hle]
    have htl : (l.take d).length = d := by
      rw [List.length_take]
      omega
    by_cases hi : i < d
    · rw [List.getElem?_append_left (by omega)]
      constructor
      · intro h
        exact absurd rfl (hl 10 (List.mem_of_mem_take (List.getElem?_mem h)))
      · rintro ⟨hmod, _⟩
        rw [Nat.mod_eq_of_lt (by omega)] at hmod
        omega
    · rw [List.getElem?_append_right (by omega)]
      rw [htl]
      rw [breakTail_newline_iff d hd (l.drop d).length (l.drop d) (le_refl _)
        (fun x hx => hl x (List.mem_of_mem_drop hx)) (i - d)]
      have hmod_iff : i % (d + 1) = d ↔ (i - d) % (d + 1) = 0 := by
        have := mod_shift d (i - d)
        rw [show d + (i - d) = i from by omega] at this
        exact this
      have hlen_eq : (l.take d ++ breakTail d (l.drop d)).length =
          d + (breakTail d (l.drop d)).length := by
        rw [List.length_append, htl]
      constructor
      · rintro ⟨h1, h2⟩
        refine ⟨hmod_iff.mpr h1, ?_⟩
        rw [hlen_eq]
        omega
      · rintro ⟨h1, h2⟩
        refine ⟨hmod_iff.mp h1, ?_⟩
        rw [hlen_eq] at h2
        omega

/-- Whether a byte maps to the reverse-table sentinel 64 (it belongs to
neither alphabet; the pad symbols also map to the sentinel). -/
def isBadChar (c : Nat) : Bool := from_base64_chars.getD c 64 == 64

/-- Whether the final-quad handling raises `invalidSymbol`: only the
characters its pad branch actually looks up count. -/
def finalQuadBad (c0 c1 c2 c3 : Nat) : Bool :=
  if c2 = 61 ∨ c2 = 46 then isBadChar c0 || isBadChar c1
  else if c3 = 61 ∨ c3 = 46 then isBadChar c0 || isBadChar c1 || isBadChar c2
  else isBadChar c0 || isBadChar c1 || isBadChar c2 || isBadChar c3

/-- Whether decoding a well-formed input raises `invalidSymbol`: every
character of the non-final quads is examined, the final quad only per its
pad branch. -/
def decodeExamBad : List Nat → Bool
  | c0 :: c1 :: c2 :: c3 :: c4 :: r =>
    isBadChar c0 || isBadChar c1 || isBadChar c2 || isBadChar c3 ||
      decodeExamBad (c4 :: r)
  | [c0, c1, c2, c3] => finalQuadBad c0 c1 c2 c3
  | _ => false

/-- Sentinel characters make `pos_of_char` throw. -/
theorem pos_of_char_bad (c : Nat) (h : isBadChar c = true) :
    pos_of_char c = .error .invalidSymbol := by
  have h64 : from_base64_chars.getD c 64 = 64 := by simpa [isBadChar] using h
  rw [pos_of_char, if_neg (not_not.mpr h64)]

/-- Non-sentinel characters make `pos_of_char` return the table entry. -/
theorem pos_of_char_good (c : Nat) (h : isBadChar c = false) :
    pos_of_char c = .ok (from_base64_chars.getD c 64) := by
  have h64 : from_base64_chars.getD c 64 ≠ 64 := by simpa [isBadChar] using h
  rw [pos_of_char, if_pos h64]

/-- The final-quad handling errors exactly when one of its examined
characters is a sentinel. -/
theorem finalQuadPure_spec (c0 c1 c2 c3 : Nat) :
    (finalQuadBad c0 c1 c2 c3 = true →
      finalQuadPure c0 c1 c2 c3 = .error .invalidSymbol) ∧
    (finalQuadBad c0 c1 c2 c3 = false → ∃ bs, finalQuadPure c0 c1 c2 c3 = .ok bs) := by
  simp only [finalQuadBad, finalQuadPure]
  by_cases h2 : c2 = 61 ∨ c2 = 46
  · rw [if_pos h2, if_pos h2]
    cases hb0 : isBadChar c0 <;> cases hb1 : isBadChar c1 <;>
      simp only [pos_of_char_good, pos_of_char_bad, hb0, hb1, ok_bind, error_bind,
        Bool.false_or, Bool.true_or, Bool.or_false, Bool.or_true] <;>
      refine ⟨fun h => ?_, fun h => ?_⟩ <;>
      first | rfl | trivial | exact ⟨_, rfl⟩ | simp at h
  · rw [if_neg h2, if_neg h2]
    by_cases h3 : c3 = 61 ∨ c3 = 46
    · rw [if_pos h3, if_pos h3]
      cases hb0 : isBadChar c0 <;> cases hb1 : isBadChar c1 <;>
        cases hb2 : isBadChar c2 <;>
        simp only [pos_of_char_good, pos_of_char_bad, hb0, hb1, hb2, ok_bind,
          error_bind, Bool.false_or, Bool.true_or, Bool.or_false, Bool.or_true] <;>
        refine ⟨fun h => ?_, fun h => ?_⟩ <;>
        first | rfl | trivial | exact ⟨_, rfl⟩ | simp at h
    · rw [if_neg h3, if_neg h3]
      cases hb0 : isBadChar c0 <;> cases hb1 : isBadChar c1 <;>
        cases hb2 : isBadChar c2 <;> cases hb3 : isBadChar c3 <;>
        simp only [pos_of_char_good, pos_of_char_bad, hb0, hb1, hb2, hb3, ok_bind,
          error_bind, Bool.false_or, Bool.true_or, Bool.or_false, Bool.or_true] <;>
        refine ⟨fun h => ?_, fun h => ?_⟩ <;>
        first | rfl | trivial | exact ⟨_, rfl⟩ | simp at h

/-- The list-structured decoder errors with `invalidSymbol` exactly when
some examined character is a sentinel, and succeeds otherwise. -/
theorem decodePure_spec : ∀ l : List Nat, l.length % 4 = 0 → 0 < l.length →
    (decodeExamBad l = true → decodePure l = .error .invalidSymbol) ∧
    (decodeExamBad l = false → ∃ bs, decodePure l = .ok bs)
  | c0 :: c1 :: c2 :: c3 :: c4 :: r, hm, _ => by
    have ih := decodePure_spec (c4 :: r)
      (by simp only [List.length_cons] at hm ⊢; omega) (by simp)
    obtain ⟨ih1, ih2⟩ := ih
    simp only [decodePure, decodeExamBad]
    cases hb0 : isBadChar c0 <;> cases hb1 : isBadChar c1 <;>
      cases hb2 : isBadChar c2 <;> cases hb3 : isBadChar c3 <;>
      simp only [pos_of_char_good, pos_of_char_bad, hb0, hb1, hb2, hb3, ok_bind,
        error_bind, Bool.false_or, Bool.true_or, Bool.or_false, Bool.or_true] <;>
      try exact ⟨fun _ => trivial, by simp⟩
    constructor
    · intro hbad
      rw [ih1 hbad, error_bind]
    · intro hgood
      obtain ⟨bs, hbs⟩ := ih2 hgood
      exact ⟨_, by rw [hbs, ok_bind]⟩
  | [c0, c1, c2, c3], _, _ => by
    simp only [decodePure, decodeExamBad]
    exact finalQuadPure_spec c0 c1 c2 c3
  | [], _, h0 => by simp at h0
  | [_], hm, _ => by simp at hm
  | [_, _], hm, _ => by simp at hm
  | [_, _, _], hm, _ => by simp at hm

/-- Decode on a well-formed-length input: `invalidSymbol` exactly when an
examined character is a sentinel, success otherwise. -/
theorem base64_decode_invalid_iff (s : List Nat) (hm : s.length % 4 = 0)
    (h0 : 0 < s.length) (hlt : s.length < 2 ^ 64) :
    (decodeExamBad s = true → base64_decode s false = .error .invalidSymbol) ∧
    (decodeExamBad s = false → ∃ bs, base64_decode s false = .ok bs) := by
  have h4 : 4 ≤ s.length := by omega
  have hne : s.isEmpty = false := List.isEmpty_eq_false.mpr (by
    intro hc
    rw [hc] at h0
    simp at h0)
  rw [base64_decode]
  simp only [hne, Bool.false_eq_true, if_false]
  rw [decodeNoStrip_eq_decodePure s h4 hm hlt]
  exact decodePure_spec s hm h0

/-- Number of trailing occurrences of `a` at the end of `l`. -/
def countTrailing (a : Nat) (l : List Nat) : Nat :=
  (l.reverse.takeWhile fun x => x == a).length

/-- `takeWhile` ignores a second part when it already stops inside the
first. -/
theorem takeWhile_append_of_short {p : Nat → Bool} :
    ∀ (A B : List Nat), (A.takeWhile p).length < A.length →
      (A ++ B).takeWhile p = A.takeWhile p
  | [], _, h => by simp at h
  | a :: A, B, h => by
    by_cases hp : p a
    · simp only [List.takeWhile_cons_of_pos hp] at h
      simp only [List.cons_append, List.takeWhile_cons_of_pos hp]
      simp only [List.length_cons] at h
      rw [takeWhile_append_of_short A B (by omega)]
    · simp only [List.cons_append, List.takeWhile_cons_of_neg hp]

/-- A prefix does not change the trailing count when the suffix does not
consist entirely of the counted value. -/
theorem countTrailing_append (a : Nat) (x y : List Nat)
    (h : countTrailing a y < y.length) :
    countTrailing a (x ++ y) = countTrailing a y := by
  rw [countTrailing, countTrailing, List.reverse_append]
  rw [takeWhile_append_of_short y.reverse x.reverse (by
    rw [List.length_reverse]
    exact h)]

/-- Appending one non-counted value resets the trailing count to zero. -/
theorem countTrailing_snoc_ne (a b : Nat) (l : List Nat) (h : b ≠ a) :
    countTrailing a (l ++ [b]) = 0 := by
  rw [countTrailing, List.reverse_append]
  simp only [List.reverse_cons, List.reverse_nil, List.nil_append, List.cons_append,
    List.singleton_append]
  rw [List.takeWhile_cons_of_neg (by simp [h])]
  rfl

/-- Appending the counted value increments the trailing count. -/
theorem countTrailing_snoc_eq (a : Nat) (l : List Nat) :
    countTrailing a (l ++ [a]) = countTrailing a l + 1 := by
  rw [countTrailing, countTrailing, List.reverse_append]
  simp only [List.reverse_cons, List.reverse_nil, List.nil_append, List.cons_append,
    List.singleton_append]
  rw [List.takeWhile_cons_of_pos (by simp)]
  rfl

/-- Trailing count of a 4-element list ending in two copies of `t`. -/
theorem countTrailing_four_2 (t x0 x1 : Nat) (h : x1 ≠ t) :
    countTrailing t [x0, x1, t, t] = 2 := by
  have e1 : countTrailing t [x0, x1, t, t] = countTrailing t [x0, x1, t] + 1 :=
    countTrailing_snoc_eq t [x0, x1, t]
  have e2 : countTrailing t [x0, x1, t] = countTrailing t [x0, x1] + 1 :=
    countTrailing_snoc_eq t [x0, x1]
  have e3 : countTrailing t [x0, x1] = 0 := countTrailing_snoc_ne t x1 [x0] h
  omega

/-- Trailing count of a 4-element list ending in one copy of `t`. -/
theorem countTrailing_four_1 (t x0 x1 x2 : Nat) (h : x2 ≠ t) :
    countTrailing t [x0, x1, x2, t] = 1 := by
  have e1 : countTrailing t [x0, x1, x2, t] = countTrailing t [x0, x1, x2] + 1 :=
    countTrailing_snoc_eq t [x0, x1, x2]
  have e2 : countTrailing t [x0, x1, x2] = 0 := countTrailing_snoc_ne t x2 [x0, x1] h
  omega

/-- Trailing count of a 4-element list not ending in `t`. -/
theorem countTrailing_four_0 (t x0 x1 x2 x3 : Nat) (h : x3 ≠ t) :
    countTrailing t [x0, x1, x2, x3] = 0 :=
  countTrailing_snoc_ne t x3 [x0, x1, x2] h

/-- Trailing count ignores a full leading quad when the rest keeps fewer
trailing pads than its length. -/
theorem countTrailing_cons4 (t x0 x1 x2 x3 : Nat) (y : List Nat)
    (h : countTrailing t y < y.length) :
    countTrailing t (x0 :: x1 :: x2 :: x3 :: y) = countTrailing t y :=
  countTrailing_append t [x0, x1, x2, x3] y h

/-- No alphabet lookup equals the trailing character of its own variant. -/
theorem enc_char_ne_trailing (url : Bool) (i : Nat) :
    (to_base64_chars url).getD i 0 ≠ (if url then 46 else 61) := by
  cases url
  · simpa using (enc_char_ne false i).1
  · simpa using (enc_char_ne true i).2.1

/-- Trailing-pad law on the encoding loop: none, two or one pads according
to the residue of the byte count modulo 3. -/
theorem countTrailing_encode (url : Bool) :
    ∀ B : List Nat,
      countTrailing (if url then 46 else 61)
          (encodeGroups (to_base64_chars url) (if url then 46 else 61) B) =
        if B.length % 3 = 0 then 0 else if B.length % 3 = 1 then 2 else 1
  | [] => by simp [encodeGroups, countTrailing]
  | [b0] => by
    simp only [encodeGroups]
    rw [countTrailing_four_2 _ _ _ (enc_char_ne_trailing url _)]
    norm_num
  | [b0, b1] => by
    simp only [encodeGroups]
    rw [countTrailing_four_1 _ _ _ _ (enc_char_ne_trailing url _)]
    norm_num
  | b0 :: b1 :: b2 :: rest => by
    rcases rest with _ | ⟨r, rs⟩
    · simp only [encodeGroups]
      rw [countTrailing_four_0 _ _ _ _ _ (enc_char_ne_trailing url _)]
      norm_num
    · have ih := countTrailing_encode url (r :: rs)
      have hlen4 : 4 ≤ (encodeGroups (to_base64_chars url) (if url then 46 else 61)
          (r :: rs)).length := by
        rw [encodeGroups_length]
        simp only [List.length_cons]
        omega
      have hct : countTrailing (if url then 46 else 61)
            (encodeGroups (to_base64_chars url) (if url then 46 else 61) (r :: rs)) <
          (encodeGroups (to_base64_chars url) (if url then 46 else 61) (r :: rs)).length := by
        rw [ih]
        have hle2 : (if (r :: rs).length % 3 = 0 then 0
            else if (r :: rs).length % 3 = 1 then 2 else 1) ≤ 2 := by
          split_ifs <;> omega
        omega
      simp only [encodeGroups]
      rw [countTrailing_cons4 _ _ _ _ _ _ hct]
      rw [ih]
      have hm3 : (b0 :: b1 :: b2 :: r :: rs).length % 3 = (r :: rs).length % 3 := by
        simp only [List.length_cons]
        omega
      rw [hm3]

/-- C1: for every byte sequence and both alphabet variants, decoding the
encoding with `strip_linebreaks` unset yields exactly the original bytes.
Bytes fit in `unsigned char`; the length bound keeps the encoded length
inside `size_t`. -/
theorem c1_roundtrip (B : List Nat) (url : Bool) (hB : ∀ b ∈ B, b < 256)
    (hlen : B.length < 2 ^ 61) :
    base64_decode (base64_encode B url) false = .ok B :=
  decode_encode B url hB hlen

/-- Witness for C1 at concrete inputs: "Man" with the standard alphabet and
two high bytes with the url-safe alphabet. -/
theorem c1_roundtrip_witness :
    base64_decode (base64_encode [77, 97, 110] false) false = .ok [77, 97, 110] ∧
    base64_decode (base64_encode [251, 239] true) false = .ok [251, 239] :=
  ⟨c1_roundtrip [77, 97, 110] false (by decide) (by norm_num),
   c1_roundtrip [251, 239] true (by decide) (by norm_num)⟩

/-- C2: the claim says malformed lengths fail with an explicit
`MalformedLength` check; the code has no such check.  On "A" (length 1) the
loop bound `in_len - 4` underflows and the read at index 1 yields the NUL
character, so `pos_of_char` throws the invalid-symbol error; on "AB C="
(length 5) the space in the main loop throws the invalid-symbol error.  No
`MalformedLength` error is ever produced. -/
theorem c2_no_length_check :
    base64_decode [65] false = .error .invalidSymbol ∧
    base64_decode [65, 66, 32, 67, 61] false = .error .invalidSymbol ∧
    base64_decode [65] false ≠ .error .malformedLength ∧
    base64_decode [65, 66, 32, 67, 61] false ≠ .error .malformedLength := by
  refine ⟨rfl, rfl, ?_, ?_⟩ <;> decide

/-- C3 counterexample: "AA=!" contains '!' (33), which is in neither
alphabet and is not a pad symbol, yet decode succeeds, because the
character after the recognized pad is never examined; conversely "=AAA"
consists solely of alphabet and pad characters, yet decode fails with the
invalid-symbol error.  So decode failing with `InvalidSymbol` is not
equivalent to "some character is neither alphabet member nor pad". -/
theorem c3_counterexample :
    base64_decode [65, 65, 61, 33] false = .ok [0] ∧
    from_base64_chars.getD 33 64 = 64 ∧ (33 : Nat) ≠ 61 ∧ (33 : Nat) ≠ 46 ∧
    base64_decode [61, 65, 65, 65] false = .error .invalidSymbol := by
  refine ⟨rfl, rfl, ?_, ?_, rfl⟩ <;> decide

/-- C3 (amended): for inputs whose length is a positive multiple of 4
(stripping unset), decode fails with `InvalidSymbol` iff some character the
decoder examines maps to the reverse-table sentinel — all characters of
non-final quads, and in the final quad only those before a recognized pad
(`decodeExamBad`); pad symbols themselves map to the sentinel, so a pad in
an examined position also fails.  Otherwise decode succeeds; a failure
returns no partial bytes. -/
theorem c3_invalid_symbol (s : List Nat) (hm : s.length % 4 = 0)
    (h0 : 0 < s.length) (hlt : s.length < 2 ^ 64) :
    (decodeExamBad s = true → base64_decode s false = .error .invalidSymbol) ∧
    (decodeExamBad s = false → ∃ bs, base64_decode s false = .ok bs) :=
  base64_decode_invalid_iff s hm h0 hlt

/-- Witness for C3 (amended) at "!!!!", whose four characters are all
invalid. -/
theorem c3_invalid_symbol_witness :
    (decodeExamBad [33, 33, 33, 33] = true →
      base64_decode [33, 33, 33, 33] false = .error .invalidSymbol) ∧
    (decodeExamBad [33, 33, 33, 33] = false →
      ∃ bs, base64_decode [33, 33, 33, 33] false = .ok bs) :=
  c3_invalid_symbol [33, 33, 33, 33] (by decide) (by decide) (by norm_num)

/-- C4: the encoded length is exactly `ceil(n/3)*4 = (n+2)/3*4` for every
byte sequence of length `n` (empty included) and either variant; encoding
is a total function with no failure outcome. -/
theorem c4_encode_length (B : List Nat) (url : Bool) :
    (base64_encode B url).length = (B.length + 2) / 3 * 4 :=
  base64_encode_length B url

/-- C5: the number of trailing pad symbols in an encoding is determined by
the byte count modulo 3 — none when 0, two when 1, one when 2 — and the pad
symbol is '=' (61) for the standard variant, '.' (46) for the url-safe
variant. -/
theorem c5_padding (B : List Nat) (url : Bool) :
    countTrailing (if url then 46 else 61) (base64_encode B url) =
      if B.length % 3 = 0 then 0 else if B.length % 3 = 1 then 2 else 1 :=
  countTrailing_encode url B

/-- C6: wrapped encodings carry a newline exactly at positions 64, 129,
194, … (PEM, remainder 64 modulo 65) resp. 76, 153, … (MIME, remainder 76
modulo 77), never after the final symbol, and removing all newlines yields
exactly the standard-alphabet encoding. -/
theorem c6_wrapping (B : List Nat) :
    (∀ i, ((encode_pem B)[i]? = some 10 ↔
      (i % 65 = 64 ∧ i < (encode_pem B).length))) ∧
    (∀ i, ((encode_mime B)[i]? = some 10 ↔
      (i % 77 = 76 ∧ i < (encode_mime B).length))) ∧
    (encode_pem B).getLast? ≠ some 10 ∧
    (encode_mime B).getLast? ≠ some 10 ∧
    (encode_pem B).filter (fun c => c != 10) = base64_encode B false ∧
    (encode_mime B).filter (fun c => c != 10) = base64_encode B false := by
  have hpem : encode_pem B = wrapSpec 64 (base64_encode B false) := by
    rw [encode_pem, encode_with_line_breaks, insert_linebreaks_eq _ 64 (by omega)]
  have hmime : encode_mime B = wrapSpec 76 (base64_encode B false) := by
    rw [encode_mime, encode_with_line_breaks, insert_linebreaks_eq _ 76 (by omega)]
  have hnl := encode_ne_newline B false
  refine ⟨?_, ?_, ?_, ?_, ?_, ?_⟩
  · intro i
    rw [hpem]
    exact wrapSpec_newline_iff 64 (by omega) _ hnl i
  · intro i
    rw [hmime]
    exact wrapSpec_newline_iff 76 (by omega) _ hnl i
  · rw [hpem]
    exact wrapSpec_getLast 64 (by omega) _ hnl
  · rw [hmime]
    exact wrapSpec_getLast 76 (by omega) _ hnl
  · rw [hpem]
    exact filter_wrapSpec 64 (by omega) _ hnl
  · rw [hmime]
    exact filter_wrapSpec 76 (by omega) _ hnl

/-- C7: decoding a MIME-wrapped encoding with `strip_linebreaks` set
recovers the original bytes; and with the flag set, decode equals decoding
the newline-erased copy of the input with the flag unset. -/
theorem c7_mime_roundtrip (B : List Nat) (s : List Nat) (hB : ∀ b ∈ B, b < 256)
    (hlen : B.length < 2 ^ 61) :
    base64_decode (encode_mime B) true = .ok B ∧
    base64_decode s true = base64_decode (s.filter fun c => c != 10) false :=
  ⟨decode_encode_mime B hB hlen, decode_strip_eq s⟩

/-- Witness for C7 at "Man" and a newline-bearing decode input. -/
theorem c7_mime_roundtrip_witness :
    base64_decode (encode_mime [77, 97, 110]) true = .ok [77, 97, 110] ∧
    base64_decode [84, 87, 10, 70, 117] true =
      base64_decode ([84, 87, 10, 70, 117].filter fun c => c != 10) false :=
  c7_mime_roundtrip [77, 97, 110] [84, 87, 10, 70, 117] (by decide) (by norm_num)

/-- C8: the empty input is a fixed point in both directions: encoding the
empty sequence yields the empty text for either variant, and decoding the
empty text yields the empty sequence without error, for either stripping
flag. -/
theorem c8_empty (url remove_linebreaks : Bool) :
    base64_encode [] url = [] ∧ base64_decode [] remove_linebreaks = .ok [] := by
  cases url <;> cases remove_linebreaks <;> exact ⟨rfl, rfl⟩

/-- C9: the concrete vectors hold: encode "Man" = "TWFu", encode "Ma" =
"TWE=", encode "M" = "TQ==", decode "TWFu" = "Man"; and the url-safe
encoding of bytes 0xFB 0xEF 0xBE is "----" (all four 6-bit fields equal 62,
emitted as '-' = 45), containing neither '+' (43) nor '/' (47). -/
theorem c9_vectors :
    base64_encode [77, 97, 110] false = [84, 87, 70, 117] ∧
    base64_encode [77, 97] false = [84, 87, 69, 61] ∧
    base64_encode [77] false = [84, 81, 61, 61] ∧
    base64_decode [84, 87, 70, 117] false = .ok [77, 97, 110] ∧
    base64_encode [251, 239, 190] true = [45, 45, 45, 45] ∧
    (43 : Nat) ∉ base64_encode [251, 239, 190] true ∧
    (47 : Nat) ∉ base64_encode [251, 239, 190] true := by
  refine ⟨rfl, rfl, rfl, rfl, rfl, ?_, ?_⟩ <;> decide

/-- C10: decode discards the unused low-order bits of the final symbol
before a pad: "TQ==" and "TR==" are distinct accepted inputs that both
decode to "M", so decode restricted to padded encodings is not injective. -/
theorem c10_noncanonical :
    base64_decode [84, 81, 61, 61] false = .ok [77] ∧
    base64_decode [84, 82, 61, 61] false = .ok [77] ∧
    ([84, 81, 61, 61] : List Nat) ≠ [84, 82, 61, 61] := by
  refine ⟨rfl, rfl, ?_⟩
  decide
